import Mathlib

/-!
Verification development for the RedPacketHub-Thxbox message relay bot
(`src/main.py`).

The Python source is shallowly embedded as executable Lean definitions:

* the text pipeline (`should_forward`, `clean_message_text`,
  `remove_forbidden_words`, the promotional trailer of `forward_message`)
  is translated onto `List Char` / `String`;
* the regular-expression substitution `re.sub(rf'#?{word}\b', '', line,
  flags=re.IGNORECASE)` is embedded as a left-to-right scan
  (`subScanAux`) that, at each position, greedily tries to consume an
  optional `#` followed by the word (case-insensitively) followed by a
  word boundary, exactly as Python's `re` engine does for this
  star-free pattern;
* the five timestamp regexes are fixed-length character templates
  anchored at the end of the line (each pattern is a sequence of `\d`
  and literal characters followed by `$`, so `re.search` succeeds iff
  the final characters of the line fit the template);
* the delivery-queue machinery (`handle_new_message`, `process_queue`,
  the globals `is_forwarding` / `last_forward_time` / `message_queue`)
  is embedded as a labelled transition system `Step` over a state
  record `Sys`.  Handler invocations are modelled as atomic
  transitions; the `process_queue` coroutine is modelled as a task that
  alternates between checking the while-condition and sleeping, with
  nondeterministic interleaving and a monotone discrete clock, which is
  the standard abstraction of the single-threaded asyncio loop.
  `deque.popleft()` on an empty deque raises `IndexError`, which is not
  caught inside `process_queue`; this is the `wakeCrash` transition.

Machine integers do not occur; Python's float clock is modelled by a
monotone `Nat` clock.  Python's `str.lower()` / `\d` / `\w` are modelled
by `Char.toLower` / `Char.isDigit` / ASCII alphanumerics, which agree on
all configured terms.
-/

/-! ## Character-level helpers -/

/-- Word characters as used by the `\b` assertion in `re.sub` patterns
(`[A-Za-z0-9_]`; all configured forbidden words are ASCII). -/
def isWordChar (c : Char) : Bool := c.isAlphanum || c = '_'

/-- `str.lower()` applied characterwise. -/
def lowerChars (cs : List Char) : List Char := cs.map Char.toLower

/-- Case-sensitive prefix test used to embed Python's `needle in hay`. -/
def startsWithList : List Char → List Char → Bool
  | [], _ => true
  | _ :: _, [] => false
  | n :: ns, h :: hs => (n == h) && startsWithList ns hs

/-- Case-sensitive substring containment: Python's `needle in hay`. -/
def containsList (needle : List Char) : List Char → Bool
  | [] => startsWithList needle []
  | c :: cs => startsWithList needle (c :: cs) || containsList needle cs

/-- Case-insensitive prefix test (the `re.IGNORECASE` word match). -/
def startsWithCI : List Char → List Char → Bool
  | [], _ => true
  | _ :: _, [] => false
  | w :: ws, c :: cs => (w.toLower == c.toLower) && startsWithCI ws cs

/-- Python `line.strip()`: drop whitespace from both ends. -/
def pyStrip (cs : List Char) : List Char :=
  ((cs.dropWhile Char.isWhitespace).reverse.dropWhile Char.isWhitespace).reverse

/-- Python `line.rstrip()`: drop trailing whitespace. -/
def pyRstrip (cs : List Char) : List Char :=
  (cs.reverse.dropWhile Char.isWhitespace).reverse

/-- Python `text.split('\n')`. -/
def splitOnNl : List Char → List (List Char)
  | [] => [[]]
  | c :: cs =>
    if c = '\n' then [] :: splitOnNl cs
    else
      match splitOnNl cs with
      | [] => [[c]]
      | p :: r => (c :: p) :: r

/-- Python `'\n'.join(...)` on character lists. -/
def joinNl : List (List Char) → List Char
  | [] => []
  | [l] => l
  | l :: ls => l ++ '\n' :: joinNl ls

/-! ## Admission filter (`should_forward`, `src/main.py` lines 113-124) -/

/-- The `valid_numbers` allow-list of `should_forward`. -/
def valid_numbers : List String :=
  ["USDT", "Provided", "599", "666", "700", "777", "888", "899", "999",
   "1000", "1111", "1200", "1500", "1999", "1888", "2000", "2500", "2777",
   "2888", "2999", "3000", "3100", "3300", "3333", "3500", "3786", "4000",
   "4444", "4500", "5000", "5500", "5555", "6000", "6666", "10000"]

/-- The `forbidden_terms` deny-list of `should_forward`. -/
def forbidden_terms : List String :=
  ["http", "t.me", "@", "thx", "thxbox", "agelia_quiz_bot", "fake"]

/-- `should_forward(message_text, has_media)`: `False` on empty text or
media, otherwise an allow-list substring hit and no case-insensitive
deny-list substring hit. -/
def should_forward (message_text : String) (has_media : Bool) : Bool :=
  if message_text = "" ∨ has_media = true then false
  else
    (valid_numbers.any fun num => containsList num.data message_text.data) &&
    !(forbidden_terms.any fun term =>
        containsList (lowerChars term.data) (lowerChars message_text.data))

/-! ## Timestamp-trailer removal (`clean_message_text`, lines 126-150) -/

/-- One element of a timestamp regex: `\d` or a literal character. -/
inductive TElem
  | digit
  | lit (c : Char)
deriving DecidableEq, Repr

/-- Whether a template element accepts a character. -/
def matchTElem (e : TElem) (c : Char) : Bool :=
  match e with
  | .digit => c.isDigit
  | .lit x => c = x

/-- Match a reversed template against a reversed line (suffix match). -/
def matchesEndRev : List TElem → List Char → Bool
  | [], _ => true
  | _ :: _, [] => false
  | e :: es, c :: cs => matchTElem e c && matchesEndRev es cs

/-- `re.search(pat + '$', line)` for a fixed-length pattern: the final
characters of the line fit the template. -/
def matchesEnd (tpl : List TElem) (line : List Char) : Bool :=
  matchesEndRev tpl.reverse line.reverse

/-- `n` consecutive `\d` elements. -/
def tsDigits (n : Nat) : List TElem := List.replicate n TElem.digit

/-- The five `timestamp_patterns` of `clean_message_text`. -/
def timestamp_patterns : List (List TElem) :=
  [ tsDigits 2 ++ [TElem.lit '-'] ++ tsDigits 2 ++ [TElem.lit '-'] ++ tsDigits 4 ++
      [TElem.lit ' '] ++ tsDigits 2 ++ [TElem.lit ':'] ++ tsDigits 2 ++ [TElem.lit ':'] ++ tsDigits 2,
    tsDigits 2 ++ [TElem.lit '/'] ++ tsDigits 2 ++ [TElem.lit '/'] ++ tsDigits 4 ++
      [TElem.lit ' '] ++ tsDigits 2 ++ [TElem.lit ':'] ++ tsDigits 2 ++ [TElem.lit ':'] ++ tsDigits 2,
    tsDigits 2 ++ [TElem.lit ':'] ++ tsDigits 2 ++ [TElem.lit ':'] ++ tsDigits 2 ++
      [TElem.lit ' '] ++ tsDigits 2 ++ [TElem.lit '-'] ++ tsDigits 2 ++ [TElem.lit '-'] ++ tsDigits 4,
    tsDigits 2 ++ [TElem.lit ':'] ++ tsDigits 2 ++
      [TElem.lit ' '] ++ tsDigits 2 ++ [TElem.lit '-'] ++ tsDigits 2 ++ [TElem.lit '-'] ++ tsDigits 4,
    tsDigits 4 ++ [TElem.lit '-'] ++ tsDigits 2 ++ [TElem.lit '-'] ++ tsDigits 2 ++
      [TElem.lit ' '] ++ tsDigits 2 ++ [TElem.lit ':'] ++ tsDigits 2 ++ [TElem.lit ':'] ++ tsDigits 2 ]

/-- The line list built by `clean_message_text`: strip each line, drop
blank lines, and drop the final line when it ends in a timestamp
shape. -/
def cleanLines (cs : List Char) : List (List Char) :=
  let lines := ((splitOnNl cs).map pyStrip).filter fun l => !l.isEmpty
  match lines.getLast? with
  | none => lines
  | some last =>
    if timestamp_patterns.any (fun tpl => matchesEnd tpl last) then lines.dropLast
    else lines

/-- `clean_message_text(text)` (lines 126-150). -/
def clean_message_text (text : String) : String :=
  if text = "" then text else String.mk (joinNl (cleanLines text.data))

/-! ## Forbidden-word stripping (`remove_forbidden_words`, lines 152-168)

`re.sub(rf'#?{re.escape(word)}\b', '', line, flags=re.IGNORECASE)` is a
left-to-right scan over the line.  At each position the engine greedily
tries `#` + word + `\b`, falls back to word + `\b`, removes the match
and resumes after it, or keeps the character and moves one to the
right. -/

/-- The `\b` assertion sitting after a match of length `k` at the head
of `cs`: the wordness of the `k`-th character differs from that of the
`(k-1)`-th (end of string counts as non-word). -/
def boundaryAfterMatch (cs : List Char) (k : Nat) : Bool :=
  match cs.drop (k - 1) with
  | [] => false
  | [p] => isWordChar p
  | p :: q :: _ => isWordChar p != isWordChar q

/-- Try the `#`-consuming alternative of `#?word\b` at the head of `cs`. -/
def tryHash (w : List Char) (cs : List Char) : Option Nat :=
  match cs with
  | [] => none
  | c :: rest =>
    if c = '#' && startsWithCI w rest && boundaryAfterMatch cs (w.length + 1) then
      some (w.length + 1)
    else none

/-- Try the plain alternative `word\b` at the head of `cs`. -/
def tryPlain (w : List Char) (cs : List Char) : Option Nat :=
  if startsWithCI w cs && boundaryAfterMatch cs w.length then some w.length
  else none

/-- Length of the `#?word\b` match at the head of `cs`, if any
(`#`-alternative preferred, as the regex engine backtracks). -/
def tryMatchLen (w : List Char) (cs : List Char) : Option Nat :=
  if w = [] then none
  else
    match tryHash w cs with
    | some k => some k
    | none => tryPlain w cs

/-- The substitution scan with explicit fuel (one unit per consumed
character; `fuel = cs.length` is always enough). -/
def subScanAux (w : List Char) : Nat → List Char → List Char
  | _, [] => []
  | 0, cs => cs
  | fuel + 1, c :: cs =>
    match tryMatchLen w (c :: cs) with
    | some k => subScanAux w fuel ((c :: cs).drop k)
    | none => c :: subScanAux w fuel cs

/-- `re.sub(rf'#?{word}\b', '', line, flags=re.IGNORECASE)`. -/
def subAll (w : List Char) (line : List Char) : List Char :=
  subScanAux w line.length line

/-- The `forbidden_words` list removed before forwarding. -/
def forbidden_words : List String :=
  ["#", "big", "box", "slot", "square", "thxbox", "thx", "angelia", "fake"]

/-- One line of `remove_forbidden_words`: apply `re.sub` for each word
in order, then `rstrip()`. -/
def processLine (forbidden_list : List String) (line : List Char) : List Char :=
  pyRstrip (forbidden_list.foldl (fun l w => subAll w.data l) line)

/-- `remove_forbidden_words(text, forbidden_list)`. -/
def remove_forbidden_words (text : String) (forbidden_list : List String) : String :=
  if text = "" then text
  else String.mk (joinNl ((splitOnNl text.data).map (processLine forbidden_list)))

/-- The fixed promotional trailer appended by `forward_message`
(`f"{cleaned_text} \n**#Binance #RedPacketHub** "`). -/
def trailer : String := " \n**#Binance #RedPacketHub** "

/-- The text actually sent by `forward_message`: cleaned, stripped of
forbidden words, and decorated with the trailer. -/
def forward_text (text : String) : String :=
  remove_forbidden_words (clean_message_text text) forbidden_words ++ trailer

/-! ## Delivery queue, rate limiter and drain task (lines 98-101, 173-232)

The state carries the module globals (`message_queue`, `is_forwarding`,
`last_forward_time`), the multiset of live `process_queue` coroutines
(each either about to test the `while message_queue` condition or
sleeping until a wake time), a log of performed dispatches, and a
monotone clock. -/

/-- An inbound Telegram message: its text and media flag. -/
structure Msg where
  text : String
  media : Bool
deriving DecidableEq, Repr

/-- The configuration constants `rate_limit` and `queue_delay`. -/
structure Config where
  rate_limit : Nat
  queue_delay : Nat
deriving DecidableEq, Repr

/-- Where a live `process_queue` coroutine currently stands: about to
test the `while message_queue:` condition, or inside
`await asyncio.sleep(queue_delay)` until time `wake`. -/
inductive TaskPhase
  | checking
  | sleeping (wake : Nat)
deriving DecidableEq, Repr

/-- The global state of the bot. -/
structure Sys where
  queue : List Msg
  is_forwarding : Bool
  last_forward_time : Nat
  tasks : List TaskPhase
  log : List (Nat × String)
  now : Nat
deriving DecidableEq, Repr

/-- `handle_new_message` (lines 173-195) run to completion at time `t`:
if the message passes `should_forward` and the rate gate is open,
dispatch immediately, stamp `last_forward_time`, raise `is_forwarding`
and `create_task(process_queue())`; otherwise append to the queue;
non-admitted messages are discarded. -/
def handle_new_message (cfg : Config) (s : Sys) (m : Msg) (t : Nat) : Sys :=
  if should_forward m.text m.media = true then
    if s.is_forwarding = false ∨ cfg.rate_limit < t - s.last_forward_time then
      { s with log := s.log ++ [(t, forward_text m.text)],
               last_forward_time := t,
               is_forwarding := true,
               tasks := s.tasks ++ [TaskPhase.checking],
               now := t }
    else
      { s with queue := s.queue ++ [m], now := t }
  else
    { s with now := t }

/-- Interleaved execution: a handler invocation runs atomically, and
each live `process_queue` task either observes an empty queue and
terminates (clearing `is_forwarding`), or starts its
`asyncio.sleep(queue_delay)`, or wakes up and executes
`message_queue.popleft()` — which dispatches the head, or dies with an
uncaught `IndexError` when another task already emptied the queue. -/
inductive Step (cfg : Config) : Sys → Sys → Prop
  | arrive (s : Sys) (m : Msg) (t : Nat) (ht : s.now ≤ t) :
      Step cfg s (handle_new_message cfg s m t)
  | checkEmpty (s : Sys) (t : Nat) (pre post : List TaskPhase)
      (ht : s.now ≤ t)
      (htasks : s.tasks = pre ++ TaskPhase.checking :: post)
      (hq : s.queue = []) :
      Step cfg s { s with tasks := pre ++ post, is_forwarding := false, now := t }
  | checkBusy (s : Sys) (t : Nat) (pre post : List TaskPhase)
      (ht : s.now ≤ t)
      (htasks : s.tasks = pre ++ TaskPhase.checking :: post)
      (hq : s.queue ≠ []) :
      Step cfg s { s with tasks := pre ++ TaskPhase.sleeping (t + cfg.queue_delay) :: post, now := t }
  | wakePop (s : Sys) (t w : Nat) (pre post : List TaskPhase) (m : Msg) (rest : List Msg)
      (ht : s.now ≤ t) (hw : w ≤ t)
      (htasks : s.tasks = pre ++ TaskPhase.sleeping w :: post)
      (hq : s.queue = m :: rest) :
      Step cfg s { s with queue := rest,
                          log := s.log ++ [(t, forward_text m.text)],
                          tasks := pre ++ TaskPhase.checking :: post,
                          now := t }
  | wakeCrash (s : Sys) (t w : Nat) (pre post : List TaskPhase)
      (ht : s.now ≤ t) (hw : w ≤ t)
      (htasks : s.tasks = pre ++ TaskPhase.sleeping w :: post)
      (hq : s.queue = []) :
      Step cfg s { s with tasks := pre ++ post, now := t }

/-- The state at module load: empty queue, `is_forwarding = False`,
`last_forward_time = 0`, no drain task. -/
def initSys : Sys :=
  { queue := [], is_forwarding := false, last_forward_time := 0,
    tasks := [], log := [], now := 0 }

/-- States the bot can reach from start-up. -/
def Reachable (cfg : Config) (s : Sys) : Prop :=
  Relation.ReflTransGen (Step cfg) initSys s

/-! ## Dispatcher (`forward_message` loop, lines 207-220) -/

/-- The per-destination loop of `forward_message`: each configured
channel is attempted once, in order; the `try/except` records the
outcome and the pacing delay (1 s after success, 3 s after a logged
failure) and always continues with the next channel. -/
def forward_attempts (send : Int → Bool) : List Int → List (Int × Bool × Nat)
  | [] => []
  | ch :: rest =>
    (ch, send ch, if send ch then 1 else 3) :: forward_attempts send rest

/-! ## Connection handler (`handle_raw`, lines 237-243) -/

/-- The visible actions of `handle_raw`. -/
inductive BotAction
  | log_warn
  | sleep (secs : Nat)
  | reconnect
deriving DecidableEq, Repr

/-- `handle_raw` on an `UpdateConnectionState` event: on `disconnected`
it logs, sleeps a fixed 5 seconds and calls `client.connect()`; on
anything else it does nothing.  It keeps no state between events. -/
def handle_raw (is_disconnected_event : Bool) : List BotAction :=
  if is_disconnected_event then [BotAction.log_warn, BotAction.sleep 5, BotAction.reconnect]
  else []

/-- Total seconds slept by a list of actions. -/
def sleepTotal (as : List BotAction) : Nat :=
  as.foldl (fun n a => match a with | BotAction.sleep k => n + k | _ => n) 0

/-- The delay before the `n`-th reconnect attempt.  `handle_raw` is
stateless, so every attempt gets the same actions. -/
def reconnect_delay (_attempt : Nat) : Nat := sleepTotal (handle_raw true)

/-! ## Claim-side (specification) notions -/

/-- Directional/formatting control marks named by the specification
(LRM, RLM, the LRE/RLE/PDF/LRO/RLO block and the LRI/RLI/FSI/PDI
block). -/
def directional_marks : List Char :=
  ['\u200E', '\u200F', '\u202A', '\u202B', '\u202C', '\u202D', '\u202E',
   '\u2066', '\u2067', '\u2068', '\u2069']

/-- Declarative word boundary between the final character `x` of a
match and the remainder `b` of the line. -/
def BoundaryAt (u b : List Char) : Prop :=
  ∃ u0 x, u = u0 ++ [x] ∧
    ((b = [] ∧ isWordChar x = true) ∨
     (∃ y b0, b = y :: b0 ∧ isWordChar x ≠ isWordChar y))

/-- A `#?word\b` occurrence at the head of `cs`, stated declaratively:
an optional `#`, then the word case-insensitively, ending at a word
boundary. -/
def HeadOccur (w cs : List Char) : Prop :=
  ∃ hs u b, cs = hs ++ u ++ b ∧ (hs = [] ∨ hs = ['#']) ∧
    lowerChars u = lowerChars w ∧ BoundaryAt u b

/-- A `#?word\b` occurrence anywhere in `cs`. -/
def BOccur (w cs : List Char) : Prop :=
  ∃ a rest, cs = a ++ rest ∧ HeadOccur w rest

/-! ## Concrete states used below -/

/-- A 60-second rate window with a 120-second queue-drain delay
(the Scenario-4 configuration; also the code's defaults). -/
def cfg60 : Config := { rate_limit := 60, queue_delay := 120 }

/-- A message that passes the admission filter. -/
def m777 : Msg := { text := "777", media := false }

/-- A second admitted message. -/
def m888 : Msg := { text := "888", media := false }

/-- A message rejected on its raw text but admitted after
normalization: `#thx 3000` contains the deny-list term `thx`, yet the
forbidden-word stripper turns it into ` 3000`. -/
def msgThx : Msg := { text := "#thx 3000", media := false }

/-- After `m777` arrives at `t = 0`: dispatched immediately, one drain
task created. -/
def sysA : Sys := handle_new_message cfg60 initSys m777 0

/-- After a second admitted message arrives at `t = 1` (within the rate
window, `is_forwarding` still set): it is queued. -/
def sysB : Sys := handle_new_message cfg60 sysA m777 1

/-- After a third admitted message arrives at `t = 61` (rate window
expired, the first drain task still alive and the queue non-empty): the
immediate path runs again and creates a second drain task. -/
def sysC : Sys := handle_new_message cfg60 sysB m777 61

/-- After the drain task created at `t = 0` runs its `while` check
before the second message arrives: the queue is empty, so it clears
`is_forwarding` and exits. -/
def sysE : Sys := { sysA with tasks := [], is_forwarding := false, now := 0 }

/-- After `m888` then arrives at `t = 1`: `is_forwarding` is `false`
again, so it is dispatched immediately instead of being queued. -/
def sysF : Sys := handle_new_message cfg60 sysE m888 1

/-- A state with one queued message and one drain task sleeping until
`t = 120`, used to witness the frame conditions of the drain pop. -/
def sysQ : Sys :=
  { queue := [m777], is_forwarding := true, last_forward_time := 0,
    tasks := [TaskPhase.sleeping 120], log := [], now := 0 }

/-- The state after the drain pop out of `sysQ` at `t = 120`. -/
def sysQpop : Sys :=
  { queue := [], is_forwarding := true, last_forward_time := 0,
    tasks := [TaskPhase.checking], log := [(120, forward_text (m777.text))], now := 120 }

/-! ## Substring containment, declaratively -/

theorem startsWithList_iff (n : List Char) :
    ∀ h : List Char, startsWithList n h = true ↔ ∃ b, h = n ++ b := by
  induction n with
  | nil => intro h; simp [startsWithList]
  | cons a as ih =>
    intro h
    cases h with
    | nil => simp [startsWithList]
    | cons c cs =>
      simp only [startsWithList, Bool.and_eq_true, beq_iff_eq, ih, List.cons_append]
      constructor
      · rintro ⟨rfl, b, rfl⟩
        exact ⟨b, rfl⟩
      · rintro ⟨b, hb⟩
        injection hb with h1 h2
        exact ⟨h1.symm, b, h2⟩

theorem containsList_iff (n : List Char) :
    ∀ h : List Char, containsList n h = true ↔ ∃ a b, h = a ++ n ++ b := by
  intro h
  induction h with
  | nil =>
    cases n with
    | nil => simp [containsList, startsWithList]
    | cons x xs =>
      simp only [containsList, startsWithList, List.append_assoc, List.cons_append]
      constructor
      · intro hfalse; cases hfalse
      · rintro ⟨a, b, hab⟩
        rcases List.append_eq_nil.mp hab.symm with ⟨-, h2⟩
        cases h2
  | cons c cs ih =>
    simp only [containsList, Bool.or_eq_true, startsWithList_iff, ih]
    constructor
    · rintro (⟨b, hb⟩ | ⟨a, b, hab⟩)
      · exact ⟨[], b, by simpa using hb⟩
      · exact ⟨c :: a, b, by simp [hab]⟩
    · rintro ⟨a, b, hab⟩
      cases a with
      | nil => exact Or.inl ⟨b, by simpa using hab⟩
      | cons a0 as =>
        rw [List.cons_append, List.cons_append] at hab
        injection hab with h1 h2
        exact Or.inr ⟨as, b, h2⟩

/-! ## Claim C4 -/

/-- C4: the admission predicate returns `false` whenever the text is
empty or the media flag is set; on non-empty text without media it
returns `true` exactly when some allow-list term occurs as a
case-sensitive substring and, after lowercasing both sides, no
deny-list term occurs as a substring. -/
theorem C4_admission_filter (text : String) (media : Bool) :
    (text = "" ∨ media = true → should_forward text media = false) ∧
    (text ≠ "" → media = false →
      (should_forward text media = true ↔
        ((∃ n, n ∈ valid_numbers ∧ ∃ a b, text.data = a ++ n.data ++ b) ∧
         ∀ f, f ∈ forbidden_terms →
           ¬ ∃ a b, lowerChars text.data = a ++ lowerChars f.data ++ b))) := by
  constructor
  · intro h
    rw [should_forward, if_pos h]
  · intro hne hm
    rw [should_forward, if_neg (by simp [hne, hm])]
    rw [Bool.and_eq_true, Bool.not_eq_true', List.any_eq_true, List.any_eq_false]
    constructor
    · rintro ⟨⟨n, hn, hcn⟩, hforb⟩
      refine ⟨⟨n, hn, (containsList_iff _ _).mp hcn⟩, ?_⟩
      intro f hf hex
      exact hforb f hf ((containsList_iff _ _).mpr hex)
    · rintro ⟨⟨n, hn, hex⟩, hforb⟩
      refine ⟨⟨n, hn, (containsList_iff _ _).mpr hex⟩, ?_⟩
      intro f hf hc
      exact hforb f hf ((containsList_iff _ _).mp hc)

/-- C4 witness: a concrete admitted message. -/
theorem C4_admission_filter_witness : should_forward ("777") false = true := by
  have h := (C4_admission_filter ("777") false).2 (by decide) rfl
  refine h.mpr ⟨⟨"777", by decide, [], [], by decide⟩, ?_⟩
  intro f hf hex
  have hc := (containsList_iff (lowerChars f.data) (lowerChars (String.data ("777")))).mpr hex
  fin_cases hf <;> exact absurd hc (by decide)

/-! ## Claim C8 -/

/-- C8: the dispatcher loop attempts every configured destination
exactly once, in configured order, whatever the per-destination send
outcomes are; a failed destination is paced (3 s), logged through its
recorded outcome, and never aborts the later attempts, and no
destination is retried within the call. -/
theorem C8_destination_isolation (send : Int → Bool) (dests : List Int) :
    ((forward_attempts send dests).map Prod.fst = dests) ∧
    (∀ d ∈ dests, (d, send d, if send d then 1 else 3) ∈ forward_attempts send dests) := by
  induction dests with
  | nil => exact ⟨rfl, by intro d hd; cases hd⟩
  | cons ch rest ih =>
    refine ⟨by simp [forward_attempts, ih.1], ?_⟩
    intro d hd
    rcases List.mem_cons.mp hd with rfl | hd'
    · exact List.mem_cons_self _ _
    · exact List.mem_cons_of_mem _ (ih.2 d hd')

/-- C8 witness: with two destinations and a send that always fails,
both destinations are attempted. -/
theorem C8_destination_isolation_witness :
    ((7 : Int), false, (3 : Nat)) ∈ forward_attempts (fun _ => false) [5, 7] :=
  (C8_destination_isolation (fun _ => false) [5, 7]).2 7 (by decide)

/-! ## Claim C9 -/

/-- C9 counterexample: the reconnect delay never doubles — it is the
fixed 5-second sleep of `handle_raw` on every attempt, so the claimed
exponential backoff relation fails already between the first and
second attempts. -/
theorem C9_cex :
    reconnect_delay 1 = 5 ∧ reconnect_delay 2 = 5 ∧
    ¬ reconnect_delay 2 = 2 * reconnect_delay 1 := by decide

/-- C9 (amended): on every disconnect event the handler performs the
same fixed actions — log, sleep 5 seconds, one reconnect call — with no
attempt counter, no growing delay, no retry bound and no terminal
failed state; other events produce no action. -/
theorem C9_fixed_reconnect (n : Nat) :
    handle_raw true = [BotAction.log_warn, BotAction.sleep 5, BotAction.reconnect] ∧
    reconnect_delay n = 5 ∧
    handle_raw false = [] :=
  ⟨rfl, rfl, rfl⟩

/-! ## Claim C5 -/

/-- C5 counterexample: `#thx 3000` is rejected by the handler (its raw
text contains the deny-list term `thx`), although its normalized text
` 3000` would be admitted — so admission is evaluated on the raw text,
not on the normalized text.  The handler discards the message without
touching the queue or the log. -/
theorem C5_cex :
    should_forward msgThx.text msgThx.media = false ∧
    should_forward (remove_forbidden_words (clean_message_text msgThx.text) forbidden_words)
      msgThx.media = true ∧
    handle_new_message cfg60 initSys msgThx 5 = { initSys with now := 5 } := by decide

/-- C5 (amended): the ingest path evaluates admission on the raw text
and media flag; a rejected message is discarded with no queue
interaction, an admitted message is either dispatched at once or
enqueued, and normalization together with the promotional trailer is
applied inside the dispatch routine, hence only to admitted
messages. -/
theorem C5_admission_order (cfg : Config) (s : Sys) (m : Msg) (t : Nat) :
    (should_forward m.text m.media = false → handle_new_message cfg s m t = { s with now := t }) ∧
    (should_forward m.text m.media = true →
      (handle_new_message cfg s m t).log = s.log ++ [(t, forward_text m.text)] ∨
      (handle_new_message cfg s m t).queue = s.queue ++ [m]) ∧
    forward_text m.text =
      remove_forbidden_words (clean_message_text m.text) forbidden_words ++ trailer := by
  refine ⟨?_, ?_, rfl⟩
  · intro h
    rw [handle_new_message, if_neg (by simp [h])]
  · intro h
    rw [handle_new_message, if_pos h]
    by_cases h2 : s.is_forwarding = false ∨ cfg.rate_limit < t - s.last_forward_time
    · rw [if_pos h2]; exact Or.inl rfl
    · rw [if_neg h2]; exact Or.inr rfl

/-- C5 witness: the rejected message is dropped with no state change
but the clock. -/
theorem C5_admission_order_witness :
    handle_new_message cfg60 initSys msgThx 5 = { initSys with now := 5 } :=
  (C5_admission_order cfg60 initSys msgThx 5).1 (by decide)

/-! ## Claim C2 -/

/-- C2 counterexample: a reachable state with two live drain tasks.
`m777` at `t = 0` dispatches immediately and spawns a drain task; a
second admitted message at `t = 1` is queued while that task has not
yet run; a third admitted message at `t = 61` finds the rate window
expired, takes the immediate path again and unconditionally spawns a
second drain task while the first is still alive. -/
theorem C2_cex : Reachable cfg60 sysC ∧ sysC.tasks.length = 2 ∧ sysC.is_forwarding = true := by
  refine ⟨?_, by decide, by decide⟩
  have h1 : Step cfg60 initSys sysA := Step.arrive initSys m777 0 (by decide)
  have h2 : Step cfg60 sysA sysB := Step.arrive sysA m777 1 (by decide)
  have h3 : Step cfg60 sysB sysC := Step.arrive sysB m777 61 (by decide)
  exact Relation.ReflTransGen.tail (Relation.ReflTransGen.tail (Relation.ReflTransGen.single h1) h2) h3

/-- C2 (amended): the enqueue path never starts a drain task, but the
immediate-dispatch path starts a fresh drain task unconditionally —
even when one is already running — so more than one drain task can be
live at a time. -/
theorem C2_unconditional_spawn (cfg : Config) (s : Sys) (m : Msg) (t : Nat)
    (hadm : should_forward m.text m.media = true) :
    ((s.is_forwarding = false ∨ cfg.rate_limit < t - s.last_forward_time) →
      (handle_new_message cfg s m t).tasks = s.tasks ++ [TaskPhase.checking]) ∧
    (s.is_forwarding = true → t - s.last_forward_time ≤ cfg.rate_limit →
      (handle_new_message cfg s m t).tasks = s.tasks) := by
  constructor
  · intro h2
    rw [handle_new_message, if_pos hadm, if_pos h2]
  · intro hf hrate
    rw [handle_new_message, if_pos hadm, if_neg ?_]
    rintro (h | h)
    · rw [hf] at h; cases h
    · omega

/-- C2 witness: the third arrival of the counterexample trace appends a
second drain task to the one already alive. -/
theorem C2_unconditional_spawn_witness :
    (handle_new_message cfg60 sysB m777 61).tasks = sysB.tasks ++ [TaskPhase.checking] :=
  (C2_unconditional_spawn cfg60 sysB m777 61 (by decide)).1 (Or.inr (by decide))

/-! ## Claim C3 -/

/-- C3: the code violates the scenario.  After the first admitted
message at `t = 0`, the spawned drain task finds the queue empty and
immediately resets `is_forwarding`; the second admitted message at
`t = 1` therefore takes the immediate path: it is dispatched at `t = 1`
(long before the 120-second queue-drain delay) and is never enqueued. -/
theorem C3_bug :
    Reachable cfg60 sysF ∧
    sysF.queue = [] ∧
    sysF.log = [(0, forward_text (m777.text)), (1, forward_text (m888.text))] ∧
    sysF.now = 1 ∧ 1 < cfg60.queue_delay := by
  refine ⟨?_, by decide, by decide, by decide, by decide⟩
  have h1 : Step cfg60 initSys sysA := Step.arrive initSys m777 0 (by decide)
  have h2 : Step cfg60 sysA sysE := Step.checkEmpty sysA 0 [] [] (by decide) (by decide) (by decide)
  have h3 : Step cfg60 sysE sysF := Step.arrive sysE m888 1 (by decide)
  exact Relation.ReflTransGen.tail (Relation.ReflTransGen.tail (Relation.ReflTransGen.single h1) h2) h3

/-! ## Claims C1 and C10: queue/rate contract and frame conditions -/

/-- C1: an admitted message is dispatched immediately — bypassing the
queue — with `last_forward_time := now` and `is_forwarding := true`
when the flag is down or the rate window has strictly expired, and is
appended to the back of the FIFO queue otherwise; every drain pop takes
the oldest entry and only happens out of a sleep whose wake time was
set `queue_delay` seconds after the preceding while-check (a sleep
precedes every pop, including the first, since tasks start in the
checking phase), and the drain machinery lowers `is_forwarding` only
when it observes an empty queue. -/
theorem C1_rate_gate_and_drain (cfg : Config) :
    (∀ (s : Sys) (m : Msg) (t : Nat), should_forward m.text m.media = true →
      ((s.is_forwarding = false ∨ cfg.rate_limit < t - s.last_forward_time) →
        handle_new_message cfg s m t =
          { s with log := s.log ++ [(t, forward_text m.text)],
                   last_forward_time := t, is_forwarding := true,
                   tasks := s.tasks ++ [TaskPhase.checking], now := t }) ∧
      (s.is_forwarding = true → t - s.last_forward_time ≤ cfg.rate_limit →
        handle_new_message cfg s m t = { s with queue := s.queue ++ [m], now := t })) ∧
    (∀ (s s2 : Sys), Step cfg s s2 →
      ((s2.queue.length < s.queue.length →
        ∃ m rest w t, s.queue = m :: rest ∧ s2.queue = rest ∧
          s2.log = s.log ++ [(t, forward_text m.text)] ∧
          TaskPhase.sleeping w ∈ s.tasks ∧ w ≤ t) ∧
      (∀ w, TaskPhase.sleeping w ∈ s2.tasks →
        TaskPhase.sleeping w ∈ s.tasks ∨ (s.queue ≠ [] ∧ w = s2.now + cfg.queue_delay)) ∧
      (s.is_forwarding = true → s2.is_forwarding = false → s.queue = []))) := by
  constructor
  · intro s m t hadm
    constructor
    · intro hgate
      rw [handle_new_message, if_pos hadm, if_pos hgate]
    · intro hf hrate
      rw [handle_new_message, if_pos hadm, if_neg ?_]
      rintro (h | h)
      · rw [hf] at h; cases h
      · omega
  · intro s s2 hstep
    cases hstep with
    | arrive m t ht =>
      by_cases h1 : should_forward m.text m.media = true
      · by_cases h2 : s.is_forwarding = false ∨ cfg.rate_limit < t - s.last_forward_time
        · have he : handle_new_message cfg s m t =
              { s with log := s.log ++ [(t, forward_text m.text)],
                       last_forward_time := t, is_forwarding := true,
                       tasks := s.tasks ++ [TaskPhase.checking], now := t } := by
            rw [handle_new_message, if_pos h1, if_pos h2]
          rw [he]
          refine ⟨fun hlen => absurd hlen (lt_irrefl _), ?_, ?_⟩
          · intro w hw
            have hw2 : TaskPhase.sleeping w ∈ s.tasks ++ [TaskPhase.checking] := hw
            rcases List.mem_append.mp hw2 with h | h
            · exact Or.inl h
            · simp at h
          · intro _ hff
            exact Bool.noConfusion hff
        · have he : handle_new_message cfg s m t = { s with queue := s.queue ++ [m], now := t } := by
            rw [handle_new_message, if_pos h1, if_neg h2]
          rw [he]
          refine ⟨?_, fun w hw => Or.inl hw, ?_⟩
          · intro hlen
            have hlen2 : (s.queue ++ [m]).length < s.queue.length := hlen
            simp only [List.length_append, List.length_cons, List.length_nil] at hlen2
            omega
          · intro hf hff
            have h3 : s.is_forwarding = false := hff
            rw [hf] at h3
            exact Bool.noConfusion h3
      · have he : handle_new_message cfg s m t = { s with now := t } := by
          rw [handle_new_message, if_neg h1]
        rw [he]
        refine ⟨fun hlen => absurd hlen (lt_irrefl _), fun w hw => Or.inl hw, ?_⟩
        intro hf hff
        have h3 : s.is_forwarding = false := hff
        rw [hf] at h3
        exact Bool.noConfusion h3
    | checkEmpty t pre post ht htasks hq =>
      refine ⟨fun hlen => absurd hlen (lt_irrefl _), ?_, fun _ _ => hq⟩
      intro w hw
      have hw2 : TaskPhase.sleeping w ∈ pre ++ post := hw
      rcases List.mem_append.mp hw2 with h | h
      · exact Or.inl (by rw [htasks]; exact List.mem_append.mpr (Or.inl h))
      · exact Or.inl (by rw [htasks]; exact List.mem_append.mpr (Or.inr (List.mem_cons_of_mem _ h)))
    | checkBusy t pre post ht htasks hq =>
      refine ⟨fun hlen => absurd hlen (lt_irrefl _), ?_, ?_⟩
      · intro w hw
        have hw2 : TaskPhase.sleeping w ∈ pre ++ TaskPhase.sleeping (t + cfg.queue_delay) :: post := hw
        rcases List.mem_append.mp hw2 with h | h
        · exact Or.inl (by rw [htasks]; exact List.mem_append.mpr (Or.inl h))
        · rcases List.mem_cons.mp h with heq | h
          · injection heq with hww
            exact Or.inr ⟨hq, hww⟩
          · exact Or.inl (by rw [htasks]; exact List.mem_append.mpr (Or.inr (List.mem_cons_of_mem _ h)))
      · intro hf hff
        have h3 : s.is_forwarding = false := hff
        rw [hf] at h3
        exact Bool.noConfusion h3
    | wakePop t w pre post m rest ht hw htasks hq =>
      refine ⟨?_, ?_, ?_⟩
      · intro hlen
        refine ⟨m, rest, w, t, hq, rfl, rfl, ?_, hw⟩
        rw [htasks]
        exact List.mem_append.mpr (Or.inr (List.mem_cons_self _ _))
      · intro w2 hw2
        have hw3 : TaskPhase.sleeping w2 ∈ pre ++ TaskPhase.checking :: post := hw2
        rcases List.mem_append.mp hw3 with h | h
        · exact Or.inl (by rw [htasks]; exact List.mem_append.mpr (Or.inl h))
        · rcases List.mem_cons.mp h with heq | h
          · exact TaskPhase.noConfusion heq
          · exact Or.inl (by rw [htasks]; exact List.mem_append.mpr (Or.inr (List.mem_cons_of_mem _ h)))
      · intro hf hff
        have h3 : s.is_forwarding = false := hff
        rw [hf] at h3
        exact Bool.noConfusion h3
    | wakeCrash t w pre post ht hw htasks hq =>
      refine ⟨fun hlen => absurd hlen (lt_irrefl _), ?_, ?_⟩
      · intro w2 hw2
        have hw3 : TaskPhase.sleeping w2 ∈ pre ++ post := hw2
        rcases List.mem_append.mp hw3 with h | h
        · exact Or.inl (by rw [htasks]; exact List.mem_append.mpr (Or.inl h))
        · exact Or.inl (by rw [htasks]; exact List.mem_append.mpr (Or.inr (List.mem_cons_of_mem _ h)))
      · intro hf hff
        have h3 : s.is_forwarding = false := hff
        rw [hf] at h3
        exact Bool.noConfusion h3

/-- C1 witness: the first arrival out of the initial state takes the
immediate path and produces exactly the contracted state. -/
theorem C1_rate_gate_and_drain_witness :
    handle_new_message cfg60 initSys m777 0 =
      { initSys with log := initSys.log ++ [(0, forward_text (m777.text))],
                     last_forward_time := 0, is_forwarding := true,
                     tasks := initSys.tasks ++ [TaskPhase.checking], now := 0 } :=
  ((C1_rate_gate_and_drain cfg60).1 initSys m777 0 (by decide)).1 (Or.inl rfl)

/-- C10: `last_forward_time` changes only on the immediate-dispatch
path of the ingest handler; a drain-task pop changes neither
`last_forward_time` nor `is_forwarding`, and whenever `is_forwarding`
falls the queue was empty and `last_forward_time` kept its value — so
the rate window is always measured from the last immediate dispatch,
never refreshed by queued deliveries. -/
theorem C10_frame (cfg : Config) (s s2 : Sys) (h : Step cfg s s2) :
    (s2.last_forward_time ≠ s.last_forward_time →
      ∃ m t, should_forward m.text m.media = true ∧
        (s.is_forwarding = false ∨ cfg.rate_limit < t - s.last_forward_time) ∧
        s2 = handle_new_message cfg s m t ∧ s2.last_forward_time = t) ∧
    (s2.queue.length < s.queue.length →
      s2.last_forward_time = s.last_forward_time ∧ s2.is_forwarding = s.is_forwarding) ∧
    (s.is_forwarding = true → s2.is_forwarding = false →
      s.queue = [] ∧ s2.last_forward_time = s.last_forward_time) := by
  cases h with
  | arrive m t ht =>
    by_cases h1 : should_forward m.text m.media = true
    · by_cases h2 : s.is_forwarding = false ∨ cfg.rate_limit < t - s.last_forward_time
      · have he : handle_new_message cfg s m t =
            { s with log := s.log ++ [(t, forward_text m.text)],
                     last_forward_time := t, is_forwarding := true,
                     tasks := s.tasks ++ [TaskPhase.checking], now := t } := by
          rw [handle_new_message, if_pos h1, if_pos h2]
        rw [he]
        exact ⟨fun _ => ⟨m, t, h1, h2, he.symm, rfl⟩,
               fun hlen => absurd hlen (lt_irrefl _),
               fun _ hff => Bool.noConfusion hff⟩
      · have he : handle_new_message cfg s m t = { s with queue := s.queue ++ [m], now := t } := by
          rw [handle_new_message, if_pos h1, if_neg h2]
        rw [he]
        refine ⟨fun hne => absurd rfl hne, ?_, ?_⟩
        · intro hlen
          have hlen2 : (s.queue ++ [m]).length < s.queue.length := hlen
          simp only [List.length_append, List.length_cons, List.length_nil] at hlen2
          omega
        · intro hf hff
          have h3 : s.is_forwarding = false := hff
          rw [hf] at h3
          exact Bool.noConfusion h3
    · have he : handle_new_message cfg s m t = { s with now := t } := by
        rw [handle_new_message, if_neg h1]
      rw [he]
      refine ⟨fun hne => absurd rfl hne, fun _ => ⟨rfl, rfl⟩, ?_⟩
      intro hf hff
      have h3 : s.is_forwarding = false := hff
      rw [hf] at h3
      exact Bool.noConfusion h3
  | checkEmpty t pre post ht htasks hq =>
    exact ⟨fun hne => absurd rfl hne,
           fun hlen => absurd hlen (lt_irrefl _),
           fun _ _ => ⟨hq, rfl⟩⟩
  | checkBusy t pre post ht htasks hq =>
    refine ⟨fun hne => absurd rfl hne, fun hlen => absurd hlen (lt_irrefl _), ?_⟩
    intro hf hff
    have h3 : s.is_forwarding = false := hff
    rw [hf] at h3
    exact Bool.noConfusion h3
  | wakePop t w pre post m rest ht hw htasks hq =>
    refine ⟨fun hne => absurd rfl hne, fun _ => ⟨rfl, rfl⟩, ?_⟩
    intro hf hff
    have h3 : s.is_forwarding = false := hff
    rw [hf] at h3
    exact Bool.noConfusion h3
  | wakeCrash t w pre post ht hw htasks hq =>
    refine ⟨fun hne => absurd rfl hne, fun hlen => absurd hlen (lt_irrefl _), ?_⟩
    intro hf hff
    have h3 : s.is_forwarding = false := hff
    rw [hf] at h3
    exact Bool.noConfusion h3

/-- C10 witness: a concrete drain pop leaves both rate-state fields
unchanged. -/
theorem C10_frame_witness :
    sysQpop.last_forward_time = sysQ.last_forward_time ∧
    sysQpop.is_forwarding = sysQ.is_forwarding := by
  have hstep : Step cfg60 sysQ sysQpop :=
    Step.wakePop sysQ 120 120 [] [] m777 [] (by decide) (by decide) (by decide) (by decide)
  exact (C10_frame cfg60 sysQ sysQpop hstep).2.1 (by decide)

/-! ## Claim C6: characters of the normalizer output -/

theorem splitOnNl_ne_nil : ∀ cs : List Char, splitOnNl cs ≠ []
  | [] => by simp [splitOnNl]
  | c :: cs => by
    rw [splitOnNl]
    by_cases h : c = '\n'
    · simp [h]
    · rw [if_neg h]
      cases hs : splitOnNl cs <;> simp

theorem mem_splitOnNl {c : Char} : ∀ (cs : List Char) (l : List Char),
    l ∈ splitOnNl cs → c ∈ l → c ∈ cs := by
  intro cs
  induction cs with
  | nil =>
    intro l hl hc
    simp [splitOnNl] at hl
    subst hl
    cases hc
  | cons c0 cs ih =>
    intro l hl hc
    rw [splitOnNl] at hl
    by_cases h : c0 = '\n'
    · rw [if_pos h] at hl
      rcases List.mem_cons.mp hl with rfl | hl2
      · cases hc
      · exact List.mem_cons_of_mem _ (ih l hl2 hc)
    · rw [if_neg h] at hl
      cases hs : splitOnNl cs with
      | nil => exact absurd hs (splitOnNl_ne_nil cs)
      | cons p r =>
        rw [hs] at hl
        rcases List.mem_cons.mp hl with rfl | hl2
        · rcases List.mem_cons.mp hc with rfl | hc2
          · exact List.mem_cons_self _ _
          · exact List.mem_cons_of_mem _ (ih p (by rw [hs]; exact List.mem_cons_self _ _) hc2)
        · exact List.mem_cons_of_mem _ (ih l (by rw [hs]; exact List.mem_cons_of_mem _ hl2) hc)

theorem pyRstrip_sublist (cs : List Char) : (pyRstrip cs).Sublist cs := by
  have h : ((cs.reverse.dropWhile Char.isWhitespace).reverse).Sublist cs.reverse.reverse :=
    List.Sublist.reverse (List.dropWhile_sublist _)
  simpa using h

theorem pyStrip_sublist (cs : List Char) : (pyStrip cs).Sublist cs :=
  (pyRstrip_sublist (cs.dropWhile Char.isWhitespace)).trans (List.dropWhile_sublist _)

theorem joinNl_mem {c : Char} : ∀ ls : List (List Char),
    c ∈ joinNl ls → (∃ l ∈ ls, c ∈ l) ∨ c = '\n' := by
  intro ls
  induction ls with
  | nil => intro h; cases h
  | cons l ls ih =>
    intro h
    cases ls with
    | nil => exact Or.inl ⟨l, List.mem_cons_self _ _, by simpa [joinNl] using h⟩
    | cons l2 ls2 =>
      have h0 : c ∈ l ++ '\n' :: joinNl (l2 :: ls2) := h
      rcases List.mem_append.mp h0 with h1 | h2
      · exact Or.inl ⟨l, List.mem_cons_self _ _, h1⟩
      · rcases List.mem_cons.mp h2 with rfl | h3
        · exact Or.inr rfl
        · rcases ih h3 with ⟨l0, hl0, hc⟩ | hnl
          · exact Or.inl ⟨l0, List.mem_cons_of_mem _ hl0, hc⟩
          · exact Or.inr hnl

theorem subScanAux_sublist (w : List Char) : ∀ (fuel : Nat) (cs : List Char),
    (subScanAux w fuel cs).Sublist cs := by
  intro fuel
  induction fuel with
  | zero => intro cs; cases cs <;> simp [subScanAux]
  | succ f ih =>
    intro cs
    cases cs with
    | nil => simp [subScanAux]
    | cons c cs =>
      rw [subScanAux]
      cases h : tryMatchLen w (c :: cs) with
      | some k => exact (ih _).trans (List.drop_sublist _ _)
      | none => exact List.Sublist.cons₂ c (ih cs)

theorem subAll_sublist (w line : List Char) : (subAll w line).Sublist line :=
  subScanAux_sublist w line.length line

theorem foldl_subAll_sublist (fl : List String) : ∀ line : List Char,
    (fl.foldl (fun l w => subAll w.data l) line).Sublist line := by
  induction fl with
  | nil => intro line; simp
  | cons w fl ih =>
    intro line
    exact (ih (subAll w.data line)).trans (subAll_sublist _ _)

theorem processLine_sublist (fl : List String) (line : List Char) :
    (processLine fl line).Sublist line :=
  (pyRstrip_sublist _).trans (foldl_subAll_sublist fl line)

theorem remove_forbidden_words_chars {c : Char} (text : String) (fl : List String)
    (h : c ∈ (remove_forbidden_words text fl).data) : c ∈ text.data ∨ c = '\n' := by
  rw [remove_forbidden_words] at h
  by_cases ht : text = ""
  · rw [if_pos ht] at h
    exact Or.inl h
  · rw [if_neg ht] at h
    have h2 : c ∈ joinNl ((splitOnNl text.data).map (processLine fl)) := h
    rcases joinNl_mem _ h2 with ⟨l, hl, hc⟩ | hnl
    · rcases List.mem_map.mp hl with ⟨l0, hl0, rfl⟩
      exact Or.inl (mem_splitOnNl text.data l0 hl0 ((processLine_sublist fl l0).subset hc))
    · exact Or.inr hnl

theorem cleanLines_mem {c : Char} (cs : List Char) (l : List Char)
    (hl : l ∈ cleanLines cs) (hc : c ∈ l) : c ∈ cs := by
  simp only [cleanLines] at hl
  have hmem : l ∈ ((splitOnNl cs).map pyStrip).filter fun l => !l.isEmpty := by
    split at hl
    · exact hl
    · split at hl
      · exact (List.dropLast_sublist _).subset hl
      · exact hl
  have h2 := List.mem_of_mem_filter hmem
  rcases List.mem_map.mp h2 with ⟨l0, hl0, rfl⟩
  exact mem_splitOnNl cs l0 hl0 ((pyStrip_sublist l0).subset hc)

theorem clean_message_text_chars {c : Char} (text : String)
    (h : c ∈ (clean_message_text text).data) : c ∈ text.data ∨ c = '\n' := by
  rw [clean_message_text] at h
  by_cases ht : text = ""
  · rw [if_pos ht] at h
    exact Or.inl h
  · rw [if_neg ht] at h
    have h2 : c ∈ joinNl (cleanLines text.data) := h
    rcases joinNl_mem _ h2 with ⟨l, hl, hc⟩ | hnl
    · exact Or.inl (cleanLines_mem text.data l hl hc)
    · exact Or.inr hnl

/-- C6 counterexample: the input `U+200F 777` contains the
right-to-left mark, and the normalizer's output still contains it — the
pipeline has no rule touching directional marks. -/
theorem C6_cex :
    '‏' ∈ (String.mk ['‏', '7', '7', '7']).data ∧
    '‏' ∈ directional_marks ∧
    '‏' ∈ (remove_forbidden_words (clean_message_text (String.mk ['‏', '7', '7', '7']))
        forbidden_words).data := by decide

/-- C6 (amended): the normalizer removes no directional mark — it has
no rule mentioning them; what holds instead is that it never invents
characters: every character of the output other than the newline
separator already occurs in the input, and marks present in the input
can survive to the output. -/
theorem C6_normalizer_chars (text : String) (c : Char)
    (h : c ∈ (remove_forbidden_words (clean_message_text text) forbidden_words).data) :
    c ∈ text.data ∨ c = '\n' := by
  rcases remove_forbidden_words_chars (clean_message_text text) forbidden_words h with h2 | hnl
  · exact clean_message_text_chars text h2
  · exact Or.inr hnl

/-- C6 witness: the surviving right-to-left mark of the counterexample
input is traced back to the input by the theorem. -/
theorem C6_normalizer_chars_witness :
    '‏' ∈ (String.mk ['‏', '7']).data ∨ '‏' = '\n' :=
  C6_normalizer_chars (String.mk ['‏', '7']) '‏' (by decide)

/-! ## Claim C7: characterizing the `#?word\b` substitution -/

/-- Boolean form of the boundary test between the match's final
character `x` and the remainder `b`. -/
def boundaryB (x : Char) (b : List Char) : Bool :=
  match b with
  | [] => isWordChar x
  | y :: _ => isWordChar x != isWordChar y

theorem eq_nil_or_append_last (l : List Char) : l = [] ∨ ∃ l0 x, l = l0 ++ [x] := by
  rcases List.eq_nil_or_concat l with h | ⟨L, b, h⟩
  · exact Or.inl h
  · exact Or.inr ⟨L, b, by simpa using h⟩

theorem lowerChars_length {u w : List Char} (h : lowerChars u = lowerChars w) :
    u.length = w.length := by
  have h2 := congrArg List.length h
  simpa [lowerChars] using h2

theorem startsWithCI_iff (w : List Char) : ∀ cs : List Char,
    startsWithCI w cs = true ↔ ∃ u b, cs = u ++ b ∧ lowerChars u = lowerChars w := by
  induction w with
  | nil =>
    intro cs
    constructor
    · intro _
      exact ⟨[], cs, rfl, rfl⟩
    · intro _
      rfl
  | cons a as ih =>
    intro cs
    cases cs with
    | nil =>
      constructor
      · intro h
        exact Bool.noConfusion h
      · rintro ⟨u, b, hub, hlow⟩
        rcases List.append_eq_nil.mp hub.symm with ⟨rfl, -⟩
        simp [lowerChars] at hlow
    | cons c cs2 =>
      rw [startsWithCI, Bool.and_eq_true, beq_iff_eq, ih]
      constructor
      · rintro ⟨hac, u, b, rfl, hlow⟩
        refine ⟨c :: u, b, rfl, ?_⟩
        simp only [lowerChars, List.map_cons] at hlow ⊢
        rw [hac, hlow]
      · rintro ⟨u, b, hub, hlow⟩
        cases u with
        | nil => simp [lowerChars] at hlow
        | cons u0 us =>
          rw [List.cons_append] at hub
          injection hub with h1 h2
          subst h1
          simp only [lowerChars, List.map_cons, List.cons.injEq] at hlow
          exact ⟨hlow.1.symm, us, b, h2, hlow.2⟩

theorem startsWithCI_of_lower : ∀ (w u b : List Char), lowerChars u = lowerChars w →
    startsWithCI w (u ++ b) = true := by
  intro w
  induction w with
  | nil => intro u b _; rfl
  | cons a as ih =>
    intro u b h
    cases u with
    | nil => simp [lowerChars] at h
    | cons u0 us =>
      simp only [lowerChars, List.map_cons, List.cons.injEq] at h
      rw [List.cons_append, startsWithCI, Bool.and_eq_true, beq_iff_eq]
      exact ⟨h.1.symm, ih us b h.2⟩

theorem startsWithCI_length : ∀ (w cs : List Char), startsWithCI w cs = true →
    w.length ≤ cs.length := by
  intro w
  induction w with
  | nil => intro cs _; simp
  | cons a as ih =>
    intro cs h
    cases cs with
    | nil => exact Bool.noConfusion h
    | cons c cs2 =>
      rw [startsWithCI, Bool.and_eq_true] at h
      simpa using Nat.succ_le_succ (ih cs2 h.2)

theorem boundaryAfterMatch_eq (u0 b : List Char) (x : Char) :
    boundaryAfterMatch (u0 ++ [x] ++ b) (u0 ++ [x]).length = boundaryB x b := by
  unfold boundaryAfterMatch
  have h1 : (u0 ++ [x]).length - 1 = u0.length := by simp
  rw [h1]
  have h2 : (u0 ++ [x] ++ b).drop u0.length = x :: b := by
    rw [List.append_assoc, List.drop_left]
    rfl
  rw [h2]
  cases b <;> rfl

theorem boundaryAfterMatch_hash_eq (u0 b : List Char) (x : Char) :
    boundaryAfterMatch ('#' :: (u0 ++ [x] ++ b)) ((u0 ++ [x]).length + 1) = boundaryB x b := by
  unfold boundaryAfterMatch
  have h1 : (u0 ++ [x]).length + 1 - 1 = u0.length + 1 := by simp
  rw [h1]
  have h2 : ('#' :: (u0 ++ [x] ++ b)).drop (u0.length + 1) = x :: b := by
    rw [List.drop_succ_cons, List.append_assoc, List.drop_left]
    rfl
  rw [h2]
  cases b <;> rfl

theorem boundaryB_iff (x : Char) (b : List Char) :
    boundaryB x b = true ↔
      ((b = [] ∧ isWordChar x = true) ∨ ∃ y b0, b = y :: b0 ∧ isWordChar x ≠ isWordChar y) := by
  cases b with
  | nil =>
    unfold boundaryB
    constructor
    · intro h
      exact Or.inl ⟨rfl, h⟩
    · rintro (⟨-, h⟩ | ⟨y, b0, hb, -⟩)
      · exact h
      · exact List.noConfusion hb
  | cons y b0 =>
    unfold boundaryB
    rw [bne_iff_ne]
    constructor
    · intro h
      exact Or.inr ⟨y, b0, rfl, h⟩
    · rintro (⟨hb, -⟩ | ⟨y2, b02, hb, h⟩)
      · exact List.noConfusion hb
      · injection hb with h1 h2
        subst h1
        exact h

theorem tryHash_some {w cs : List Char} {k : Nat} (h : tryHash w cs = some k) :
    ∃ c rest, cs = c :: rest ∧ c = '#' ∧ startsWithCI w rest = true ∧
      boundaryAfterMatch cs (w.length + 1) = true ∧ k = w.length + 1 := by
  cases cs with
  | nil => exact Option.noConfusion h
  | cons c rest =>
    rw [tryHash] at h
    by_cases hc : (c = '#' && startsWithCI w rest && boundaryAfterMatch (c :: rest) (w.length + 1)) = true
    · rw [if_pos hc] at h
      injection h with hk
      simp only [Bool.and_eq_true, decide_eq_true_eq] at hc
      exact ⟨c, rest, rfl, hc.1.1, hc.1.2, hc.2, hk.symm⟩
    · rw [if_neg hc] at h
      exact Option.noConfusion h

theorem tryPlain_some {w cs : List Char} {k : Nat} (h : tryPlain w cs = some k) :
    startsWithCI w cs = true ∧ boundaryAfterMatch cs w.length = true ∧ k = w.length := by
  rw [tryPlain] at h
  by_cases hc : (startsWithCI w cs && boundaryAfterMatch cs w.length) = true
  · rw [if_pos hc] at h
    injection h with hk
    simp only [Bool.and_eq_true] at hc
    exact ⟨hc.1, hc.2, hk.symm⟩
  · rw [if_neg hc] at h
    exact Option.noConfusion h

theorem tryMatchLen_some {w cs : List Char} {k : Nat} (h : tryMatchLen w cs = some k) :
    w ≠ [] ∧ (tryHash w cs = some k ∨ (tryHash w cs = none ∧ tryPlain w cs = some k)) := by
  rw [tryMatchLen] at h
  by_cases hw : w = []
  · rw [if_pos hw] at h
    exact Option.noConfusion h
  · rw [if_neg hw] at h
    refine ⟨hw, ?_⟩
    cases hh : tryHash w cs with
    | some k2 =>
      rw [hh] at h
      injection h with h2
      exact Or.inl (by rw [h2])
    | none =>
      rw [hh] at h
      exact Or.inr ⟨rfl, h⟩

theorem tryMatchLen_pos {w cs : List Char} {k : Nat} (h : tryMatchLen w cs = some k) :
    1 ≤ k := by
  rcases tryMatchLen_some h with ⟨hw, hh | ⟨-, hp⟩⟩
  · rcases tryHash_some hh with ⟨c, rest, -, -, -, -, hk⟩
    omega
  · rcases tryPlain_some hp with ⟨-, -, hk⟩
    subst hk
    cases w with
    | nil => exact absurd rfl hw
    | cons a as => simp

theorem tryMatchLen_le {w cs : List Char} {k : Nat} (h : tryMatchLen w cs = some k) :
    k ≤ cs.length := by
  rcases tryMatchLen_some h with ⟨hw, hh | ⟨-, hp⟩⟩
  · rcases tryHash_some hh with ⟨c, rest, rfl, -, hs, -, hk⟩
    have h2 := startsWithCI_length w rest hs
    subst hk
    simp only [List.length_cons]
    omega
  · rcases tryPlain_some hp with ⟨hs, -, hk⟩
    subst hk
    exact startsWithCI_length w cs hs

theorem subScanAux_congr (w : List Char) : ∀ (f : Nat) (cs : List Char) (g : Nat),
    cs.length ≤ f → cs.length ≤ g → subScanAux w f cs = subScanAux w g cs := by
  intro f
  induction f with
  | zero =>
    intro cs g hf hg
    have hnil : cs = [] := List.eq_nil_of_length_eq_zero (Nat.le_zero.mp hf)
    subst hnil
    cases g <;> rfl
  | succ f ih =>
    intro cs g hf hg
    cases cs with
    | nil => cases g <;> rfl
    | cons c cs2 =>
      cases g with
      | zero => simp at hg
      | succ g2 =>
        rw [subScanAux, subScanAux]
        cases h : tryMatchLen w (c :: cs2) with
        | some k =>
          have hk1 := tryMatchLen_pos h
          apply ih
          · rw [List.length_drop]
            simp only [List.length_cons] at hf ⊢
            omega
          · rw [List.length_drop]
            simp only [List.length_cons] at hg ⊢
            omega
        | none =>
          have hf2 : cs2.length ≤ f := by simp only [List.length_cons] at hf; omega
          have hg2 : cs2.length ≤ g2 := by simp only [List.length_cons] at hg; omega
          rw [ih cs2 g2 hf2 hg2]

theorem subAll_cons_none {w : List Char} {c : Char} {cs : List Char}
    (h : tryMatchLen w (c :: cs) = none) : subAll w (c :: cs) = c :: subAll w cs := by
  unfold subAll
  rw [List.length_cons, subScanAux, h]

theorem subAll_some {w cs : List Char} {k : Nat} (h : tryMatchLen w cs = some k) :
    subAll w cs = subAll w (cs.drop k) := by
  cases cs with
  | nil =>
    rcases tryMatchLen_some h with ⟨hw, hh | ⟨-, hp⟩⟩
    · exact Option.noConfusion hh
    · rcases tryPlain_some hp with ⟨hs, -, -⟩
      cases w with
      | nil => exact absurd rfl hw
      | cons a as => exact Bool.noConfusion hs
  | cons c cs2 =>
    unfold subAll
    rw [List.length_cons, subScanAux, h]
    have hk1 := tryMatchLen_pos h
    have hk2 := tryMatchLen_le h
    apply subScanAux_congr
    · rw [List.length_drop]
      simp only [List.length_cons] at hk2 ⊢
      omega
    · exact le_refl _

theorem tryMatchLen_some_headOccur {w cs : List Char} {k : Nat}
    (h : tryMatchLen w cs = some k) : HeadOccur w cs := by
  rcases tryMatchLen_some h with ⟨hw, hh | ⟨-, hp⟩⟩
  · rcases tryHash_some hh with ⟨c, rest, rfl, rfl, hs, hb, -⟩
    rcases (startsWithCI_iff w rest).mp hs with ⟨u, b, rfl, hlow⟩
    have hul : u.length = w.length := lowerChars_length hlow
    rcases eq_nil_or_append_last u with rfl | ⟨u0, x, rfl⟩
    · exfalso
      cases w with
      | nil => exact absurd rfl hw
      | cons a as => simp at hul
    · have hul2 : (u0 ++ [x]).length = w.length := hul
      rw [← hul2, boundaryAfterMatch_hash_eq] at hb
      refine ⟨['#'], u0 ++ [x], b, rfl, Or.inr rfl, hlow, u0, x, rfl, ?_⟩
      exact (boundaryB_iff x b).mp hb
  · rcases tryPlain_some hp with ⟨hs, hb, -⟩
    rcases (startsWithCI_iff w cs).mp hs with ⟨u, b, rfl, hlow⟩
    have hul : u.length = w.length := lowerChars_length hlow
    rcases eq_nil_or_append_last u with rfl | ⟨u0, x, rfl⟩
    · exfalso
      cases w with
      | nil => exact absurd rfl hw
      | cons a as => simp at hul
    · have hul2 : (u0 ++ [x]).length = w.length := hul
      rw [← hul2, boundaryAfterMatch_eq] at hb
      exact ⟨[], u0 ++ [x], b, rfl, Or.inl rfl, hlow, u0, x, rfl, (boundaryB_iff x b).mp hb⟩

theorem headOccur_isSome {w cs : List Char} (h : HeadOccur w cs) :
    (tryMatchLen w cs).isSome = true := by
  rcases h with ⟨hs, u, b, rfl, hsor, hlow, u0, x, rfl, hbnd⟩
  have hw : w ≠ [] := by
    intro hwnil
    subst hwnil
    simp [lowerChars] at hlow
  have hb : boundaryB x b = true := (boundaryB_iff x b).mpr hbnd
  have hul : (u0 ++ [x]).length = w.length := lowerChars_length hlow
  rw [tryMatchLen, if_neg hw]
  rcases hsor with rfl | rfl
  · cases hh : tryHash w (([] ++ (u0 ++ [x])) ++ b) with
    | some k => rfl
    | none =>
      have hsw : startsWithCI w ((u0 ++ [x]) ++ b) = true :=
        startsWithCI_of_lower w (u0 ++ [x]) b hlow
      have hbb : boundaryAfterMatch ((u0 ++ [x]) ++ b) w.length = true := by
        rw [← hul, boundaryAfterMatch_eq]
        exact hb
      rw [tryPlain, if_pos (by rw [Bool.and_eq_true]; exact ⟨hsw, hbb⟩)]
      rfl
  · have hh : tryHash w ((['#'] ++ (u0 ++ [x])) ++ b) = some (w.length + 1) := by
      have hcs : (['#'] ++ (u0 ++ [x])) ++ b = '#' :: ((u0 ++ [x]) ++ b) := by simp
      rw [hcs, tryHash, if_pos ?_]
      rw [Bool.and_eq_true, Bool.and_eq_true]
      refine ⟨⟨by simp, startsWithCI_of_lower w (u0 ++ [x]) b hlow⟩, ?_⟩
      rw [← hul, boundaryAfterMatch_hash_eq]
      exact hb
    rw [hh]
    rfl

theorem BOccur_cons {w : List Char} {c : Char} {cs : List Char} (h : BOccur w cs) :
    BOccur w (c :: cs) := by
  rcases h with ⟨a, rest, rfl, hh⟩
  exact ⟨c :: a, rest, rfl, hh⟩

theorem BOccur_of_cons {w : List Char} {c : Char} {cs : List Char} (h : BOccur w (c :: cs))
    (hnone : tryMatchLen w (c :: cs) = none) : BOccur w cs := by
  rcases h with ⟨a, rest, heq, hh⟩
  cases a with
  | nil =>
    rw [List.nil_append] at heq
    subst heq
    have hs := headOccur_isSome hh
    rw [hnone] at hs
    exact Bool.noConfusion hs
  | cons a0 as =>
    rw [List.cons_append] at heq
    injection heq with h1 h2
    exact ⟨as, rest, h2, hh⟩

theorem subAll_of_not_occur (w : List Char) : ∀ cs : List Char,
    ¬ BOccur w cs → subAll w cs = cs := by
  intro cs
  induction cs with
  | nil => intro _; rfl
  | cons c cs ih =>
    intro hno
    have hnone : tryMatchLen w (c :: cs) = none := by
      cases h : tryMatchLen w (c :: cs) with
      | none => rfl
      | some k => exact absurd ⟨[], c :: cs, rfl, tryMatchLen_some_headOccur h⟩ hno
    rw [subAll_cons_none hnone, ih (fun hb => hno (BOccur_cons hb))]

theorem subAll_shrink_of_occur (w : List Char) : ∀ cs : List Char,
    BOccur w cs → (subAll w cs).length < cs.length := by
  intro cs
  induction cs with
  | nil =>
    intro h
    rcases h with ⟨a, rest, heq, hs, u, b, hrest, -, -, u0, x, hu, -⟩
    rcases List.append_eq_nil.mp heq.symm with ⟨rfl, rfl⟩
    rcases List.append_eq_nil.mp hrest.symm with ⟨h2, -⟩
    rcases List.append_eq_nil.mp h2 with ⟨-, rfl⟩
    rcases List.append_eq_nil.mp hu.symm with ⟨-, hx⟩
    exact List.noConfusion hx
  | cons c cs ih =>
    intro hb
    cases h : tryMatchLen w (c :: cs) with
    | some k =>
      rw [subAll_some h]
      have h1 := tryMatchLen_pos h
      have h2 := tryMatchLen_le h
      have h3 : (subAll w ((c :: cs).drop k)).length ≤ ((c :: cs).drop k).length :=
        (subAll_sublist _ _).length_le
      rw [List.length_drop] at h3
      simp only [List.length_cons] at h2 h3 ⊢
      omega
    | none =>
      rw [subAll_cons_none h]
      have hb2 := BOccur_of_cons hb h
      simpa using Nat.succ_lt_succ (ih hb2)

theorem head?_dropWhile_false {p : Char → Bool} : ∀ (l : List Char) (x : Char),
    (l.dropWhile p).head? = some x → p x = false := by
  intro l
  induction l with
  | nil => intro x h; exact Option.noConfusion h
  | cons c cs ih =>
    intro x h
    rw [List.dropWhile_cons] at h
    by_cases hc : p c = true
    · rw [if_pos hc] at h
      exact ih x h
    · rw [if_neg hc] at h
      injection h with hcx
      subst hcx
      exact Bool.eq_false_iff.mpr hc

theorem pyRstrip_getLast_not_ws (cs : List Char) (x : Char)
    (h : (pyRstrip cs).getLast? = some x) : x.isWhitespace = false := by
  rw [pyRstrip, List.getLast?_reverse] at h
  exact head?_dropWhile_false _ x h

theorem processLine_getLast_not_ws (fl : List String) (line : List Char) (x : Char)
    (h : (processLine fl line).getLast? = some x) : x.isWhitespace = false :=
  pyRstrip_getLast_not_ws _ x h

/-- C7 counterexample: in `ssbig` the only occurrence of a configured
forbidden word is `big` as the suffix of the larger word `ssbig`
(preceded by the word character `s`), so whole-word removal would leave
the text unchanged — but the code removes it, yielding `ss`. -/
theorem C7_cex :
    remove_forbidden_words ("ssbig") forbidden_words = "ss" ∧
    ("ss" : String) ≠ "ssbig" := by decide

/-- C7 (amended): per line and per configured word, the step performs
one left-to-right scan removing the non-overlapping occurrences of the
word with an optional leading `#`, matched case-insensitively, that are
anchored by a word boundary only at their end — an occurrence may begin
inside a larger word, while one followed by a word character is kept —
and finally trims trailing whitespace of each line: the scan only
deletes characters, it is the identity exactly when no boundary-ended
occurrence exists, it strictly shortens the line otherwise, and the
processed line never ends in whitespace. -/
theorem C7_strip_contract (w line : List Char) :
    (subAll w line).Sublist line ∧
    (¬ BOccur w line → subAll w line = line) ∧
    (BOccur w line → (subAll w line).length < line.length) ∧
    (∀ (fl : List String) (x : Char), (processLine fl line).getLast? = some x →
      x.isWhitespace = false) :=
  ⟨subAll_sublist w line, subAll_of_not_occur w line, subAll_shrink_of_occur w line,
   fun fl x h => processLine_getLast_not_ws fl line x h⟩

/-- C7 witness: the scan strictly shortens `ssbig`, whose occurrence of
`big` starts inside a larger word and ends at a word boundary. -/
theorem C7_strip_contract_witness :
    (subAll (String.data ("big")) (String.data ("ssbig"))).length <
      (String.data ("ssbig")).length := by
  refine (C7_strip_contract (String.data ("big")) (String.data ("ssbig"))).2.2.1 ?_
  exact ⟨['s', 's'], ['b', 'i', 'g'], by decide, [], ['b', 'i', 'g'], [], by decide,
    Or.inl rfl, by decide, ['b', 'i'], 'g', by decide, Or.inl ⟨rfl, by decide⟩⟩
